import Mathlib

/-!
Verification development for the MRdataset FastBIDS ingestion pipeline
(src/MRdataset/fastbids.py).

The embedding below translates the pipeline into pure Lean functions.

Modelling notes.

Paths: a filesystem path is a list of name components, root first
(structure FsPath).  A candidate file (structure BidsFile) is given by
its directory path, its stem (the file name with the final extension
removed, as pathlib.Path.stem computes it) and its final extension
(as computed by the extension helper of the repository).  The full
path of the file is the directory followed by stem ++ ext.  The
pathlib identities stem (s ++ ".json") = s and stem (s ++ ".nii") = s
(the appended suffix holds the last dot of the name) are used when
translating the sidecar and header path construction of parse, which
in the source rebinds filepath through parent / (stem + extension).

Filesystem: a value of type Fs maps a path to the parameter mapping
that select_parameters would extract from the file at that path, or
none when no file exists there.  The source checks is_file before
calling select_parameters; is_file corresponds to isSome.
select_parameters itself is repository code outside src, so its result
is kept abstract: any association list of parameters.

The hierarchy store (Run, Session, Subject, Modality and the dataset
container, from MRdataset.base, which is repository code outside src)
is modelled from the spec: each level owns an insertion-ordered
collection of children keyed by unique name, with lookup by name and
insert keyed by name (a dict in the source, so inserting a name that
is already present replaces the entry in place and keeps its
position, and inserting a new name appends).
-/

/-- Scalar parameter value stored for a run: string, number or boolean.
Numbers are modelled by rationals. -/
inductive Value where
  | vStr : String → Value
  | vNum : ℚ → Value
  | vBool : Bool → Value
deriving DecidableEq, Repr

/-- Parameter mapping: an insertion-ordered association list from
parameter name to value, the pure counterpart of a Python dict. -/
abbrev Params := List (String × Value)

/-- Filesystem path as a list of name components, root first. -/
structure FsPath where
  comps : List String
deriving DecidableEq, Repr

/-- Abstract filesystem: the parameter mapping select_parameters would
extract from the file at a path, or none when no file exists there. -/
abbrev Fs := FsPath → Option Params

/-- Lookup by name in an insertion-ordered collection, the first (and,
for a dict-backed collection, only) element whose name is the key. -/
def lookupName (nm : α → String) : List α → String → Option α
  | [], _ => none
  | x :: xs, s => if nm x = s then some x else lookupName nm xs s

/-- Modelled from the spec: insert keyed by name into an
insertion-ordered collection backed by a dict.  An existing entry with
the same name is replaced in place, keeping its position; a new name
is appended at the end. -/
def insertNamed (nm : α → String) : List α → α → List α
  | [], x => [x]
  | y :: ys, x => if nm y = nm x then x :: ys else y :: insertNamed nm ys x

/-- Dict assignment d[k] = v on a parameter mapping: replace in place
when the key is present, append otherwise. -/
def updateKV : Params → String → Value → Params
  | [], k, v => [(k, v)]
  | (k0, v0) :: rest, k, v =>
      if k0 = k then (k, v) :: rest else (k0, v0) :: updateKV rest k v

/-- Dict update d.update(other): assign every pair of the second
mapping into the first, in order, later assignments overwriting
earlier ones on key collision. -/
def updateAll (ps qs : Params) : Params :=
  qs.foldl (fun a kv => updateKV a kv.1 kv.2) ps

/-- Lookup of a key in a parameter mapping (dict get). -/
def alookup (k : String) : Params → Option Value
  | [] => none
  | (k0, v) :: rest => if k0 = k then some v else alookup k rest

/-- Keys of a parameter mapping, in order. -/
def keysOf (ps : Params) : List String := ps.map Prod.fst

/-- First of two options, the first taking precedence. -/
def orElseO (a b : Option Value) : Option Value :=
  match a with
  | some v => some v
  | none => b

/-- Modelled from the spec: a Run holds a name, a parameter mapping
and the distinguished numeric field echo_time, defaulting to 1.0. -/
structure Run where
  name : String
  params : Params
  echo_time : Value
deriving DecidableEq, Repr

/-- Modelled from the spec: a Session owns a collection of Run nodes
keyed by unique name. -/
structure Session where
  name : String
  runs : List Run
deriving DecidableEq, Repr

/-- Modelled from the spec: a Subject owns a collection of Session
nodes keyed by unique name. -/
structure Subject where
  name : String
  sessions : List Session
deriving DecidableEq, Repr

/-- Modelled from the spec: a Modality owns a collection of Subject
nodes keyed by unique name. -/
structure Modality where
  name : String
  subjects : List Subject
deriving DecidableEq, Repr

/-- Modelled from the spec: the dataset root owns an ordered
collection of Modality nodes keyed by unique name. -/
structure Dataset where
  modalities : List Modality
deriving DecidableEq, Repr

/-- Modelled from the spec: lookup of a run by name under a session. -/
def Session.get_run_by_name (s : Session) (name : String) : Option Run :=
  lookupName Run.name s.runs name

/-- Modelled from the spec: insert of a run into a session. -/
def Session.add_run (s : Session) (r : Run) : Session :=
  ⟨s.name, insertNamed Run.name s.runs r⟩

/-- Modelled from the spec: lookup of a session by name under a subject. -/
def Subject.get_session_by_name (s : Subject) (name : String) : Option Session :=
  lookupName Session.name s.sessions name

/-- Modelled from the spec: insert of a session into a subject. -/
def Subject.add_session (s : Subject) (se : Session) : Subject :=
  ⟨s.name, insertNamed Session.name s.sessions se⟩

/-- Modelled from the spec: lookup of a subject by name under a modality. -/
def Modality.get_subject_by_name (m : Modality) (name : String) : Option Subject :=
  lookupName Subject.name m.subjects name

/-- Modelled from the spec: insert of a subject into a modality. -/
def Modality.add_subject (m : Modality) (s : Subject) : Modality :=
  ⟨m.name, insertNamed Subject.name m.subjects s⟩

/-- Modelled from the spec: lookup of a modality by name in the dataset. -/
def Dataset.get_modality_by_name (d : Dataset) (name : String) : Option Modality :=
  lookupName Modality.name d.modalities name

/-- Modelled from the spec: insert of a modality into the dataset. -/
def Dataset.add_modality (d : Dataset) (m : Modality) : Dataset :=
  ⟨insertNamed Modality.name d.modalities m⟩

/-- Configuration recognized by FastBIDSDataset.  Only
include_nifti_header affects the ingestion logic. -/
structure Config where
  name : String
  include_nifti_header : Bool
  is_complete : Bool
deriving DecidableEq, Repr

/-- Candidate file: directory path, stem (file name without the final
extension, pathlib semantics) and final extension. -/
structure BidsFile where
  dir : FsPath
  stem : String
  ext : String
deriving DecidableEq, Repr

/-- Parent directory of a path (pathlib parent: drop the last component). -/
def FsPath.parentDir (p : FsPath) : FsPath := ⟨p.comps.dropLast⟩

/-- Name of a path (pathlib name: its last component, empty for the root). -/
def FsPath.nameOf (p : FsPath) : String := p.comps.getLastD ""

/-- Full path of a candidate file: its directory followed by the file
name stem ++ ext. -/
def BidsFile.filePath (f : BidsFile) : FsPath := ⟨f.dir.comps ++ [f.stem ++ f.ext]⟩

/-- Translation of pathlib file.parents: parents 0 is the parent
directory, parents (i+1) its parent, and so on. -/
def BidsFile.pyParents (f : BidsFile) : Nat → FsPath
  | 0 => f.filePath.parentDir
  | n + 1 => (f.pyParents n).parentDir

/-- Sibling path of a candidate file with the same stem and another
extension, as built by parse through parent / (stem + extension). -/
def BidsFile.withExt (f : BidsFile) (e : String) : FsPath :=
  ⟨f.dir.comps ++ [f.stem ++ e]⟩

/-- Datatype derived in read_single: file.parent.name. -/
def datatypeOf (f : BidsFile) : String := (f.pyParents 0).nameOf

/-- Session name derived in read_single: file.parents1.name. -/
def sessionNameOf (f : BidsFile) : String := (f.pyParents 1).nameOf

/-- Subject name derived in read_single: file.parents2.name. -/
def subjectNameOf (f : BidsFile) : String := (f.pyParents 2).nameOf

/-- Parameter extraction of parse (fastbids.py lines 102 to 115): read
the sidecar json next to the file, then, when include_nifti_header is
set, merge the parameters of the nii and nii.gz headers at the same
stem, later stages overwriting earlier ones; a missing file at any
stage contributes nothing. -/
def extractParams (cfg : Config) (fs : Fs) (f : BidsFile) : Params :=
  let params0 : Params := []
  let params1 :=
    if (fs (f.withExt ".json")).isSome then
      updateAll params0 ((fs (f.withExt ".json")).getD [])
    else params0
  if cfg.include_nifti_header then
    let params2 :=
      if (fs (f.withExt ".nii")).isSome then
        updateAll params1 ((fs (f.withExt ".nii")).getD [])
      else params1
    if (fs (f.withExt ".nii.gz")).isSome then
      updateAll params2 ((fs (f.withExt ".nii.gz")).getD [])
    else params2
  else params1

/-- Translation of FastBIDSDataset.parse (fastbids.py lines 84 to 125):
extract the parameters for the file; when the combined mapping is
non-empty, fetch or create the run named by the file stem, assign
every extracted pair into its parameter map, set echo_time from the
EchoTime entry (1.0 when absent) and add the run to the session;
otherwise return the session unchanged. -/
def parse (cfg : Config) (fs : Fs) (session_node : Session) (f : BidsFile) : Session :=
  let filename := f.stem
  let params_from_file := extractParams cfg fs f
  if params_from_file.isEmpty then session_node
  else
    let run_node := (session_node.get_run_by_name filename).getD ⟨filename, [], Value.vNum 1⟩
    let run_node : Run :=
      ⟨run_node.name, updateAll run_node.params params_from_file,
        (alookup "EchoTime" params_from_file).getD (Value.vNum 1)⟩
    session_node.add_run run_node

/-- Translation of FastBIDSDataset.read_single (fastbids.py lines 62
to 82): derive the datatype, subject and session names from the file
position, fetch or create the corresponding nodes, and only when the
session name is new parse the file into a fresh session, attaching
session, subject and modality in turn when each is non-empty. -/
def read_single (cfg : Config) (fs : Fs) (d : Dataset) (f : BidsFile) : Dataset :=
  let datatype := datatypeOf f
  let modality_obj := (d.get_modality_by_name datatype).getD ⟨datatype, []⟩
  let nSub := subjectNameOf f
  let subject_obj := (modality_obj.get_subject_by_name nSub).getD ⟨nSub, []⟩
  let nSess := sessionNameOf f
  match subject_obj.get_session_by_name nSess with
  | some _ =>
      if modality_obj.subjects.isEmpty then d else d.add_modality modality_obj
  | none =>
      let session_node := parse cfg fs ⟨nSess, []⟩ f
      let subject_obj :=
        if session_node.runs.isEmpty then subject_obj
        else subject_obj.add_session session_node
      let modality_obj :=
        if subject_obj.sessions.isEmpty then modality_obj
        else modality_obj.add_subject subject_obj
      if modality_obj.subjects.isEmpty then d else d.add_modality modality_obj

/-- One iteration of the loop in walk: process the file when its
extension is in the allow-list, skip it otherwise. -/
def walkStep (cfg : Config) (fs : Fs) (validExts : List String)
    (d : Dataset) (f : BidsFile) : Dataset :=
  if f.ext ∈ validExts then read_single cfg fs d f else d

/-- Loop of FastBIDSDataset.walk over the files enumerated under the
data source, in enumeration order. -/
def walkFiles (cfg : Config) (fs : Fs) (validExts : List String)
    (files : List BidsFile) (d : Dataset) : Dataset :=
  files.foldl (walkStep cfg fs validExts) d

/-- Error message raised by walk when no modality was populated. -/
def noDataMsg : String := "Expected Sidecar JSON files in --data_source. Got 0"

/-- Translation of FastBIDSDataset.walk (fastbids.py lines 48 to 60):
process every enumerated file whose extension is accepted, then raise
when the dataset ends up with zero modalities. -/
def walk (cfg : Config) (fs : Fs) (validExts : List String)
    (files : List BidsFile) : Except String Dataset :=
  let d := walkFiles cfg fs validExts files ⟨[]⟩
  if d.modalities.isEmpty then Except.error noDataMsg else Except.ok d

/-- Session reachable in the dataset at a modality, subject and
session name, when the whole chain is present. -/
def Dataset.sessAt (d : Dataset) (m su se : String) : Option Session :=
  match d.get_modality_by_name m with
  | none => none
  | some mo =>
      match mo.get_subject_by_name su with
      | none => none
      | some sub => sub.get_session_by_name se

/-- Run reachable in the dataset at a modality, subject, session and
run name, when the whole chain is present. -/
def Dataset.runAt (d : Dataset) (m su se r : String) : Option Run :=
  match d.sessAt m su se with
  | none => none
  | some sess => sess.get_run_by_name r

/-- Branch condition of read_single: true exactly when the session
lookup fails and parse is invoked for the file. -/
def readSingleParses (d : Dataset) (f : BidsFile) : Bool :=
  let modality_obj := (d.get_modality_by_name (datatypeOf f)).getD ⟨datatypeOf f, []⟩
  let subject_obj := (modality_obj.get_subject_by_name (subjectNameOf f)).getD ⟨subjectNameOf f, []⟩
  (subject_obj.get_session_by_name (sessionNameOf f)).isNone

/-- Sessions considered well formed by the spec invariant: at least one run. -/
def sessionOk (se : Session) : Bool := !se.runs.isEmpty

/-- Subjects considered well formed: at least one session, all well formed. -/
def subjectOk (su : Subject) : Bool := !su.sessions.isEmpty && su.sessions.all sessionOk

/-- Modalities considered well formed: at least one subject, all well formed. -/
def modalityOk (m : Modality) : Bool := !m.subjects.isEmpty && m.subjects.all subjectOk

/-- Non-empty-branches invariant of the spec: every attached modality
owns a subject, every attached subject a session, every attached
session a run. -/
def nonEmptyInv (d : Dataset) : Bool := d.modalities.all modalityOk

/-- Run echo-time discipline: echo_time is the EchoTime entry of the
parameter map, 1.0 when the map has none. -/
def runEcho (r : Run) : Bool :=
  decide (r.echo_time = (alookup "EchoTime" r.params).getD (Value.vNum 1))

/-- Echo-time discipline over a session. -/
def sessionEcho (se : Session) : Bool := se.runs.all runEcho

/-- Echo-time discipline over a subject. -/
def subjectEcho (su : Subject) : Bool := su.sessions.all sessionEcho

/-- Echo-time discipline over a modality. -/
def modalityEcho (m : Modality) : Bool := m.subjects.all subjectEcho

/-- Echo-time invariant: every attached run carries as echo_time the
EchoTime entry of its parameter map, 1.0 when absent. -/
def echoInv (d : Dataset) : Bool := d.modalities.all modalityEcho

/-- Sidecar stage of the extraction: the parameters of the json file
at the same stem, empty when the file is missing. -/
def sidecarParams (fs : Fs) (f : BidsFile) : Params :=
  (fs (f.withExt ".json")).getD []

/-- Uncompressed header stage of the extraction: the parameters of the
nii file at the same stem, empty when disabled or missing. -/
def niiParams (cfg : Config) (fs : Fs) (f : BidsFile) : Params :=
  if cfg.include_nifti_header then (fs (f.withExt ".nii")).getD [] else []

/-- Compressed header stage of the extraction: the parameters of the
nii.gz file at the same stem, empty when disabled or missing. -/
def gzParams (cfg : Config) (fs : Fs) (f : BidsFile) : Params :=
  if cfg.include_nifti_header then (fs (f.withExt ".nii.gz")).getD [] else []

/-! Basic lemmas about named collections. -/

theorem lookupName_name_eq {nm : α → String} {xs : List α} {s : String} {x : α}
    (h : lookupName nm xs s = some x) : nm x = s := by
  induction xs with
  | nil => simp [lookupName] at h
  | cons y ys ih =>
      simp only [lookupName] at h
      split at h
      · cases h; assumption
      · exact ih h

theorem lookupName_mem {nm : α → String} {xs : List α} {s : String} {x : α}
    (h : lookupName nm xs s = some x) : x ∈ xs := by
  induction xs with
  | nil => simp [lookupName] at h
  | cons y ys ih =>
      simp only [lookupName] at h
      split at h
      · cases h; exact List.mem_cons_self _ _
      · exact List.mem_cons_of_mem _ (ih h)

theorem lookupName_isEmpty_false {nm : α → String} {xs : List α} {s : String} {x : α}
    (h : lookupName nm xs s = some x) : xs.isEmpty = false := by
  cases xs with
  | nil => simp [lookupName] at h
  | cons y ys => rfl

theorem lookupName_insertNamed_self (nm : α → String) (xs : List α) (x : α) :
    lookupName nm (insertNamed nm xs x) (nm x) = some x := by
  induction xs with
  | nil => simp [insertNamed, lookupName]
  | cons y ys ih =>
      simp only [insertNamed]
      split
      · simp [lookupName]
      · simp only [lookupName]
        split
        · rename_i h1 h2; exact absurd h2 h1
        · exact ih

theorem lookupName_insertNamed_ne {nm : α → String} {s : String} {x : α}
    (xs : List α) (h : s ≠ nm x) :
    lookupName nm (insertNamed nm xs x) s = lookupName nm xs s := by
  induction xs with
  | nil =>
      simp only [insertNamed, lookupName]
      rw [if_neg (fun hh => h hh.symm)]
  | cons y ys ih =>
      simp only [insertNamed]
      split
      · rename_i heq
        simp only [lookupName]
        rw [if_neg (fun hh => h hh.symm), if_neg]
        rw [heq]
        exact fun hh => h hh.symm
      · simp only [lookupName]
        split
        · rfl
        · exact ih

theorem insertNamed_of_lookup_self {nm : α → String} {xs : List α} {x : α}
    (h : lookupName nm xs (nm x) = some x) : insertNamed nm xs x = xs := by
  induction xs with
  | nil => simp [lookupName] at h
  | cons y ys ih =>
      simp only [lookupName] at h
      simp only [insertNamed]
      split at h
      · cases h; simp
      · rename_i hne
        rw [if_neg hne]
        rw [ih h]

theorem insertNamed_isEmpty_false (nm : α → String) (xs : List α) (x : α) :
    (insertNamed nm xs x).isEmpty = false := by
  cases xs with
  | nil => rfl
  | cons y ys =>
      simp only [insertNamed]
      split <;> rfl

theorem mem_insertNamed {nm : α → String} {xs : List α} {x y : α}
    (h : y ∈ insertNamed nm xs x) : y = x ∨ y ∈ xs := by
  induction xs with
  | nil => simp [insertNamed] at h; exact Or.inl h
  | cons z zs ih =>
      simp only [insertNamed] at h
      split at h
      · rcases List.mem_cons.mp h with h1 | h1
        · exact Or.inl h1
        · exact Or.inr (List.mem_cons_of_mem _ h1)
      · rcases List.mem_cons.mp h with h1 | h1
        · exact Or.inr (h1 ▸ List.mem_cons_self _ _)
        · rcases ih h1 with h2 | h2
          · exact Or.inl h2
          · exact Or.inr (List.mem_cons_of_mem _ h2)

/-! Basic lemmas about parameter mappings. -/

theorem alookup_updateKV_self (ps : Params) (k : String) (v : Value) :
    alookup k (updateKV ps k v) = some v := by
  induction ps with
  | nil => simp [updateKV, alookup]
  | cons p rest ih =>
      obtain ⟨k0, v0⟩ := p
      simp only [updateKV]
      split
      · simp [alookup]
      · simp only [alookup]
        split
        · rename_i h1 h2; exact absurd h2 h1
        · exact ih

theorem alookup_updateKV_ne {q k : String} (ps : Params) (v : Value) (h : q ≠ k) :
    alookup q (updateKV ps k v) = alookup q ps := by
  induction ps with
  | nil =>
      simp only [updateKV, alookup]
      rw [if_neg (fun hh => h hh.symm)]
  | cons p rest ih =>
      obtain ⟨k0, v0⟩ := p
      simp only [updateKV]
      split
      · rename_i heq
        simp only [alookup]
        rw [if_neg (fun hh => h hh.symm), if_neg]
        rw [heq]
        exact fun hh => h hh.symm
      · simp only [alookup]
        split
        · rfl
        · exact ih

theorem alookup_eq_none_of_not_mem {k : String} {ps : Params}
    (h : k ∉ keysOf ps) : alookup k ps = none := by
  induction ps with
  | nil => rfl
  | cons p rest ih =>
      obtain ⟨k0, v0⟩ := p
      simp only [keysOf, List.map_cons, List.mem_cons] at h
      push_neg at h
      simp only [alookup]
      rw [if_neg (fun hh => h.1 hh.symm)]
      exact ih (by simpa [keysOf] using h.2)

theorem not_mem_of_alookup_eq_none {k : String} {ps : Params}
    (h : alookup k ps = none) : k ∉ keysOf ps := by
  induction ps with
  | nil => simp [keysOf]
  | cons p rest ih =>
      obtain ⟨k0, v0⟩ := p
      simp only [alookup] at h
      split at h
      · cases h
      · rename_i hne
        simp only [keysOf, List.map_cons, List.mem_cons]
        push_neg
        exact ⟨fun hh => hne hh.symm, by simpa [keysOf] using ih h⟩

theorem keysOf_updateKV_nodup {ps : Params} (k : String) (v : Value)
    (h : (keysOf ps).Nodup) : (keysOf (updateKV ps k v)).Nodup := by
  induction ps with
  | nil => simp [updateKV, keysOf]
  | cons p rest ih =>
      obtain ⟨k0, v0⟩ := p
      simp only [keysOf, List.map_cons, List.nodup_cons] at h
      simp only [updateKV]
      split
      · rename_i heq
        subst heq
        simp only [keysOf, List.map_cons, List.nodup_cons]
        exact h
      · rename_i hne
        simp only [keysOf, List.map_cons, List.nodup_cons]
        constructor
        · intro hmem
          rcases List.mem_map.mp hmem with ⟨q, hq, hq2⟩
          induction rest with
          | nil =>
              simp [updateKV] at hq
              subst hq
              exact hne hq2.symm
          | cons r rs _ =>
              have : k0 ∈ keysOf (updateKV (r :: rs) k v) := by
                exact List.mem_map.mpr ⟨q, hq, hq2⟩
              have h3 : alookup k0 (updateKV (r :: rs) k v) = alookup k0 (r :: rs) :=
                alookup_updateKV_ne _ _ hne
              have h4 : alookup k0 (r :: rs) = none :=
                alookup_eq_none_of_not_mem h.1
              rw [h4] at h3
              exact not_mem_of_alookup_eq_none h3 this
        · exact ih h.2

theorem updateAll_nil_right (ps : Params) : updateAll ps [] = ps := rfl

theorem updateAll_cons (ps : Params) (k : String) (v : Value) (qs : Params) :
    updateAll ps ((k, v) :: qs) = updateAll (updateKV ps k v) qs := rfl

theorem alookup_updateAll_of_none {k : String} {qs : Params} (ps : Params)
    (h : alookup k qs = none) : alookup k (updateAll ps qs) = alookup k ps := by
  induction qs generalizing ps with
  | nil => rfl
  | cons q rest ih =>
      obtain ⟨k0, v0⟩ := q
      simp only [alookup] at h
      split at h
      · cases h
      · rename_i hne
        rw [updateAll_cons, ih _ h, alookup_updateKV_ne _ _ (fun hh => hne hh.symm)]

theorem alookup_updateAll_nodup (k : String) (qs : Params) :
    (keysOf qs).Nodup →
    ∀ ps : Params, alookup k (updateAll ps qs) = orElseO (alookup k qs) (alookup k ps) := by
  induction qs with
  | nil => intro _ ps; rfl
  | cons q rest ih =>
      intro h ps
      obtain ⟨k0, v0⟩ := q
      simp only [keysOf, List.map_cons, List.nodup_cons] at h
      rw [updateAll_cons]
      by_cases hk : k0 = k
      · subst hk
        have hrest : alookup k0 rest = none :=
          alookup_eq_none_of_not_mem (by simpa [keysOf] using h.1)
        rw [alookup_updateAll_of_none _ hrest, alookup_updateKV_self]
        simp [alookup, orElseO]
      · rw [ih h.2 (updateKV ps k0 v0), alookup_updateKV_ne _ _ (fun hh => hk hh.symm)]
        simp [alookup, orElseO, hk]

theorem keysOf_updateAll_nodup (qs : Params) :
    ∀ ps : Params, (keysOf ps).Nodup → (keysOf (updateAll ps qs)).Nodup := by
  induction qs with
  | nil => intro ps h; exact h
  | cons q rest ih =>
      intro ps h
      obtain ⟨k0, v0⟩ := q
      rw [updateAll_cons]
      exact ih _ (keysOf_updateKV_nodup _ _ h)

theorem updateKV_not_mem {k : String} {ps : Params} (v : Value)
    (h : k ∉ keysOf ps) : updateKV ps k v = ps ++ [(k, v)] := by
  induction ps with
  | nil => rfl
  | cons p rest ih =>
      obtain ⟨k0, v0⟩ := p
      simp only [keysOf, List.map_cons, List.mem_cons] at h
      push_neg at h
      simp only [updateKV]
      rw [if_neg (fun hh => h.1 hh.symm)]
      rw [ih (by simpa [keysOf] using h.2)]
      simp


theorem updateAll_append_disjoint {qs : Params} (hnd : (keysOf qs).Nodup) :
    ∀ base : Params, (∀ k ∈ keysOf qs, k ∉ keysOf base) →
    updateAll base qs = base ++ qs := by
  induction qs with
  | nil => intro base _; simp [updateAll_nil_right]
  | cons p rest ih =>
      intro base hdisj
      obtain ⟨k0, v0⟩ := p
      simp only [keysOf, List.map_cons, List.nodup_cons] at hnd
      rw [updateAll_cons, updateKV_not_mem _ (hdisj k0 (by simp [keysOf]))]
      rw [ih hnd.2 (base ++ [(k0, v0)]) ?_]
      · simp
      · intro k hk
        have hk0 : k ≠ k0 := fun hh => hnd.1 (hh ▸ hk)
        have hkmem : k ∈ keysOf ((k0, v0) :: rest) := by
          simp only [keysOf, List.map_cons, List.mem_cons]
          exact Or.inr hk
        have hkb : k ∉ keysOf base := hdisj k hkmem
        simp only [keysOf, List.map_append, List.map_cons, List.map_nil, List.mem_append,
          List.mem_singleton, not_or]
        exact ⟨fun hh => hkb hh, hk0⟩

theorem updateAll_nil_left {ps : Params} (h : (keysOf ps).Nodup) :
    updateAll [] ps = ps := by
  have h2 := updateAll_append_disjoint h [] (by intro k _; simp [keysOf])
  simpa using h2

theorem extractParams_eq_stages (cfg : Config) (fs : Fs) (f : BidsFile) :
    extractParams cfg fs f =
      updateAll (updateAll (updateAll [] (sidecarParams fs f)) (niiParams cfg fs f))
        (gzParams cfg fs f) := by
  unfold extractParams sidecarParams niiParams gzParams
  cases hf : cfg.include_nifti_header <;>
    cases hj : fs (f.withExt ".json") <;>
      cases hn : fs (f.withExt ".nii") <;>
        cases hg : fs (f.withExt ".nii.gz") <;>
          simp [updateAll_nil_right]

theorem extractParams_keys_nodup (cfg : Config) (fs : Fs) (f : BidsFile) :
    (keysOf (extractParams cfg fs f)).Nodup := by
  rw [extractParams_eq_stages]
  apply keysOf_updateAll_nodup
  apply keysOf_updateAll_nodup
  apply keysOf_updateAll_nodup
  simp [keysOf]

/-! Lemmas about parse and read_single. -/

theorem isEmpty_false_iff {l : List α} : l.isEmpty = false ↔ l ≠ [] := by
  cases l <;> simp

theorem isEmpty_true_iff {l : List α} : l.isEmpty = true ↔ l = [] := by
  cases l <;> simp

theorem parse_of_empty {cfg : Config} {fs : Fs} {f : BidsFile}
    (s : Session) (h : extractParams cfg fs f = []) : parse cfg fs s f = s := by
  unfold parse
  rw [h]
  simp

theorem parse_name (cfg : Config) (fs : Fs) (s : Session) (f : BidsFile) :
    (parse cfg fs s f).name = s.name := by
  simp only [parse]
  split
  · rfl
  · simp [Session.add_run]

/-- Run node created by parse for a file on a fresh session. -/
def freshRun (cfg : Config) (fs : Fs) (f : BidsFile) : Run :=
  ⟨f.stem, updateAll [] (extractParams cfg fs f),
    (alookup "EchoTime" (extractParams cfg fs f)).getD (Value.vNum 1)⟩

theorem parse_fresh {cfg : Config} {fs : Fs} {f : BidsFile}
    (n : String) (h : extractParams cfg fs f ≠ []) :
    parse cfg fs ⟨n, []⟩ f = ⟨n, [freshRun cfg fs f]⟩ := by
  unfold parse freshRun
  rw [if_neg (by simp [h])]
  simp [Session.get_run_by_name, lookupName, Session.add_run, insertNamed]

theorem freshRun_params {cfg : Config} {fs : Fs} {f : BidsFile} :
    (freshRun cfg fs f).params = extractParams cfg fs f := by
  unfold freshRun
  exact updateAll_nil_left (extractParams_keys_nodup cfg fs f)

theorem add_modality_self {d : Dataset} {mo : Modality}
    (h : d.get_modality_by_name mo.name = some mo) : d.add_modality mo = d := by
  unfold Dataset.add_modality
  unfold Dataset.get_modality_by_name at h
  rw [insertNamed_of_lookup_self h]

theorem add_subject_self {m : Modality} {su : Subject}
    (h : m.get_subject_by_name su.name = some su) : m.add_subject su = m := by
  unfold Modality.add_subject
  unfold Modality.get_subject_by_name at h
  rw [insertNamed_of_lookup_self h]

theorem read_single_of_empty {cfg : Config} {fs : Fs} {f : BidsFile} (d : Dataset)
    (h : extractParams cfg fs f = []) : read_single cfg fs d f = d := by
  have hp : ∀ s, parse cfg fs s f = s := fun s => parse_of_empty s h
  simp only [read_single, hp]
  cases hm : d.get_modality_by_name (datatypeOf f) with
  | none =>
      simp [Modality.get_subject_by_name, Subject.get_session_by_name, lookupName]
  | some mo =>
      have hname : Modality.name mo = datatypeOf f := lookupName_name_eq hm
      have hm2 : d.get_modality_by_name mo.name = some mo := by rw [hname]; exact hm
      cases hsu : mo.get_subject_by_name (subjectNameOf f) with
      | none =>
          simp only [hsu, Option.getD_some, Option.getD_none, Subject.get_session_by_name,
            lookupName, List.isEmpty_nil, if_true]
          split
          · rfl
          · exact add_modality_self hm2
      | some su =>
          have hsname : Subject.name su = subjectNameOf f := lookupName_name_eq hsu
          have hsu2 : mo.get_subject_by_name su.name = some su := by rw [hsname]; exact hsu
          simp only [hsu, Option.getD_some]
          cases hse : su.get_session_by_name (sessionNameOf f) with
          | some se =>
              rw [show mo.subjects.isEmpty = false from lookupName_isEmpty_false hsu]
              simp only [Bool.false_eq_true, if_false]
              exact add_modality_self hm2
          | none =>
              simp only [List.isEmpty_nil, if_true]
              rw [add_subject_self hsu2]
              simp only [ite_self]
              rw [show mo.subjects.isEmpty = false from lookupName_isEmpty_false hsu]
              simp only [Bool.false_eq_true, if_false]
              exact add_modality_self hm2

theorem read_single_skip {cfg : Config} {fs : Fs} {d : Dataset} {f : BidsFile}
    {mo : Modality} {su : Subject} {se : Session}
    (hm : d.get_modality_by_name (datatypeOf f) = some mo)
    (hsu : mo.get_subject_by_name (subjectNameOf f) = some su)
    (hse : su.get_session_by_name (sessionNameOf f) = some se) :
    read_single cfg fs d f = d := by
  have hname : Modality.name mo = datatypeOf f := lookupName_name_eq hm
  have hm2 : d.get_modality_by_name mo.name = some mo := by rw [hname]; exact hm
  simp only [read_single, hm, Option.getD_some, hsu, hse]
  rw [show mo.subjects.isEmpty = false from lookupName_isEmpty_false hsu]
  simp only [Bool.false_eq_true, if_false]
  exact add_modality_self hm2

/-! Lemmas about sessAt and the attach behaviour of read_single. -/

theorem sessAt_chain {d : Dataset} {m su se : String} {s : Session}
    (h : d.sessAt m su se = some s) :
    ∃ mo sub, d.get_modality_by_name m = some mo ∧
      mo.get_subject_by_name su = some sub ∧ sub.get_session_by_name se = some s := by
  unfold Dataset.sessAt at h
  split at h
  · exact Option.noConfusion h
  · rename_i mo hm
    split at h
    · exact Option.noConfusion h
    · rename_i sub hsu
      exact ⟨mo, sub, hm, hsu, h⟩

theorem sessAt_of_chain {d : Dataset} {mo : Modality} {sub : Subject} {m su : String}
    (se : String)
    (hm : d.get_modality_by_name m = some mo)
    (hsu : mo.get_subject_by_name su = some sub) :
    d.sessAt m su se = sub.get_session_by_name se := by
  unfold Dataset.sessAt
  simp only [hm, hsu]

theorem sessAt_none_of_modality_none {d : Dataset} {m : String} (su se : String)
    (h : d.get_modality_by_name m = none) : d.sessAt m su se = none := by
  unfold Dataset.sessAt
  simp only [h]

theorem sessAt_none_of_subject_none {d : Dataset} {mo : Modality} {m su : String} (se : String)
    (hm : d.get_modality_by_name m = some mo)
    (h : mo.get_subject_by_name su = none) : d.sessAt m su se = none := by
  unfold Dataset.sessAt
  simp only [hm, h]

theorem read_single_of_sessAt_isSome {cfg : Config} {fs : Fs} {d : Dataset} {f : BidsFile}
    (h : (d.sessAt (datatypeOf f) (subjectNameOf f) (sessionNameOf f)).isSome = true) :
    read_single cfg fs d f = d := by
  cases hs : d.sessAt (datatypeOf f) (subjectNameOf f) (sessionNameOf f) with
  | none => rw [hs] at h; cases h
  | some s =>
      obtain ⟨mo, sub, hm, hsu, hse⟩ := sessAt_chain hs
      exact read_single_skip hm hsu hse

/-- Modality value committed to the dataset by read_single when the
parse branch attaches a freshly parsed session. -/
def attachModality (cfg : Config) (fs : Fs) (d : Dataset) (f : BidsFile) : Modality :=
  let modality_obj := (d.get_modality_by_name (datatypeOf f)).getD ⟨datatypeOf f, []⟩
  let subject_obj := (modality_obj.get_subject_by_name (subjectNameOf f)).getD ⟨subjectNameOf f, []⟩
  modality_obj.add_subject (subject_obj.add_session ⟨sessionNameOf f, [freshRun cfg fs f]⟩)

theorem read_single_attach_eq {cfg : Config} {fs : Fs} {d : Dataset} {f : BidsFile}
    (hnone : d.sessAt (datatypeOf f) (subjectNameOf f) (sessionNameOf f) = none)
    (hne : extractParams cfg fs f ≠ []) :
    read_single cfg fs d f = d.add_modality (attachModality cfg fs d f) := by
  have hp : parse cfg fs ⟨sessionNameOf f, []⟩ f = ⟨sessionNameOf f, [freshRun cfg fs f]⟩ :=
    parse_fresh _ hne
  simp only [read_single, attachModality, hp]
  cases hm : d.get_modality_by_name (datatypeOf f) with
  | none =>
      simp [Modality.get_subject_by_name, Subject.get_session_by_name, lookupName,
        Subject.add_session, Modality.add_subject, insertNamed]
  | some mo =>
      cases hsu : mo.get_subject_by_name (subjectNameOf f) with
      | none =>
          simp only [hsu, Option.getD_some, Option.getD_none, Subject.get_session_by_name,
            lookupName, List.isEmpty_cons, if_false]
          simp [Subject.add_session, Modality.add_subject, insertNamed,
            insertNamed_isEmpty_false]
      | some su =>
          have hse : su.get_session_by_name (sessionNameOf f) = none := by
            have h2 := sessAt_of_chain (sessionNameOf f) hm hsu
            rw [hnone] at h2
            exact h2.symm
          simp only [hsu, Option.getD_some, hse, List.isEmpty_cons, if_false]
          simp only [Subject.add_session, List.isEmpty_cons,
            insertNamed_isEmpty_false, if_false, Modality.add_subject]
          simp [insertNamed_isEmpty_false]

/-- Subject value carrying the freshly parsed session inside attachModality. -/
def attachSubject (cfg : Config) (fs : Fs) (d : Dataset) (f : BidsFile) : Subject :=
  let modality_obj := (d.get_modality_by_name (datatypeOf f)).getD ⟨datatypeOf f, []⟩
  let subject_obj := (modality_obj.get_subject_by_name (subjectNameOf f)).getD ⟨subjectNameOf f, []⟩
  subject_obj.add_session ⟨sessionNameOf f, [freshRun cfg fs f]⟩

theorem attachModality_eq (cfg : Config) (fs : Fs) (d : Dataset) (f : BidsFile) :
    attachModality cfg fs d f =
      ((d.get_modality_by_name (datatypeOf f)).getD ⟨datatypeOf f, []⟩).add_subject
        (attachSubject cfg fs d f) := rfl

theorem modality_obj_name (d : Dataset) (n : String) :
    ((d.get_modality_by_name n).getD ⟨n, []⟩).name = n := by
  cases h : d.get_modality_by_name n with
  | none => rfl
  | some mo => simpa using lookupName_name_eq h

theorem subject_obj_name (mo : Modality) (n : String) :
    ((mo.get_subject_by_name n).getD ⟨n, []⟩).name = n := by
  cases h : mo.get_subject_by_name n with
  | none => rfl
  | some su => simpa using lookupName_name_eq h

theorem attachModality_name (cfg : Config) (fs : Fs) (d : Dataset) (f : BidsFile) :
    (attachModality cfg fs d f).name = datatypeOf f := by
  rw [attachModality_eq]
  show ((d.get_modality_by_name (datatypeOf f)).getD ⟨datatypeOf f, []⟩).name = datatypeOf f
  exact modality_obj_name d (datatypeOf f)

theorem attachSubject_name (cfg : Config) (fs : Fs) (d : Dataset) (f : BidsFile) :
    (attachSubject cfg fs d f).name = subjectNameOf f := by
  unfold attachSubject
  show Subject.name ((((d.get_modality_by_name (datatypeOf f)).getD
      ⟨datatypeOf f, []⟩).get_subject_by_name (subjectNameOf f)).getD
      ⟨subjectNameOf f, []⟩) = subjectNameOf f
  exact subject_obj_name _ _

theorem get_modality_add_attach (cfg : Config) (fs : Fs) (d : Dataset) (f : BidsFile) :
    (d.add_modality (attachModality cfg fs d f)).get_modality_by_name (datatypeOf f) =
      some (attachModality cfg fs d f) := by
  have h := lookupName_insertNamed_self Modality.name d.modalities (attachModality cfg fs d f)
  rw [attachModality_name] at h
  exact h

theorem get_subject_attach (cfg : Config) (fs : Fs) (d : Dataset) (f : BidsFile) :
    (attachModality cfg fs d f).get_subject_by_name (subjectNameOf f) =
      some (attachSubject cfg fs d f) := by
  have h := lookupName_insertNamed_self Subject.name
    ((d.get_modality_by_name (datatypeOf f)).getD ⟨datatypeOf f, []⟩).subjects
    (attachSubject cfg fs d f)
  rw [attachSubject_name] at h
  exact h

theorem get_session_attach (cfg : Config) (fs : Fs) (d : Dataset) (f : BidsFile) :
    (attachSubject cfg fs d f).get_session_by_name (sessionNameOf f) =
      some ⟨sessionNameOf f, [freshRun cfg fs f]⟩ := by
  have h := lookupName_insertNamed_self Session.name
    (((((d.get_modality_by_name (datatypeOf f)).getD
        ⟨datatypeOf f, []⟩).get_subject_by_name (subjectNameOf f)).getD
        ⟨subjectNameOf f, []⟩)).sessions
    (⟨sessionNameOf f, [freshRun cfg fs f]⟩ : Session)
  exact h

theorem sessAt_attach_self {cfg : Config} {fs : Fs} {d : Dataset} {f : BidsFile}
    (hnone : d.sessAt (datatypeOf f) (subjectNameOf f) (sessionNameOf f) = none)
    (hne : extractParams cfg fs f ≠ []) :
    (read_single cfg fs d f).sessAt (datatypeOf f) (subjectNameOf f) (sessionNameOf f) =
      some ⟨sessionNameOf f, [freshRun cfg fs f]⟩ := by
  rw [read_single_attach_eq hnone hne]
  rw [sessAt_of_chain _ (get_modality_add_attach cfg fs d f) (get_subject_attach cfg fs d f)]
  exact get_session_attach cfg fs d f

theorem runAt_attach_self {cfg : Config} {fs : Fs} {d : Dataset} {f : BidsFile}
    (hnone : d.sessAt (datatypeOf f) (subjectNameOf f) (sessionNameOf f) = none)
    (hne : extractParams cfg fs f ≠ []) :
    (read_single cfg fs d f).runAt (datatypeOf f) (subjectNameOf f) (sessionNameOf f) f.stem =
      some (freshRun cfg fs f) := by
  unfold Dataset.runAt
  simp only [sessAt_attach_self hnone hne]
  simp [Session.get_run_by_name, lookupName, freshRun]

theorem sessAt_add_attach {cfg : Config} {fs : Fs} {d : Dataset} {f : BidsFile}
    {m su se : String} {s : Session}
    (hnone : d.sessAt (datatypeOf f) (subjectNameOf f) (sessionNameOf f) = none)
    (h : d.sessAt m su se = some s) :
    (d.add_modality (attachModality cfg fs d f)).sessAt m su se = some s := by
  obtain ⟨mo, sub, hm, hsu, hse⟩ := sessAt_chain h
  by_cases hdm : m = datatypeOf f
  · subst hdm
    have hmobj : (d.get_modality_by_name (datatypeOf f)).getD ⟨datatypeOf f, []⟩ = mo := by
      rw [hm]; rfl
    by_cases hds : su = subjectNameOf f
    · subst hds
      have hsobj : (mo.get_subject_by_name (subjectNameOf f)).getD ⟨subjectNameOf f, []⟩
          = sub := by
        rw [hsu]; rfl
      have hAS : attachSubject cfg fs d f =
          sub.add_session ⟨sessionNameOf f, [freshRun cfg fs f]⟩ := by
        show ((((d.get_modality_by_name (datatypeOf f)).getD
            ⟨datatypeOf f, []⟩).get_subject_by_name (subjectNameOf f)).getD
            ⟨subjectNameOf f, []⟩).add_session ⟨sessionNameOf f, [freshRun cfg fs f]⟩ =
          sub.add_session ⟨sessionNameOf f, [freshRun cfg fs f]⟩
        rw [hmobj, hsobj]
      by_cases hdse : se = sessionNameOf f
      · subst hdse
        rw [sessAt_of_chain (sessionNameOf f) hm hsu, hse] at hnone
        exact Option.noConfusion hnone
      · have h1 := get_modality_add_attach cfg fs d f
        have h2 := get_subject_attach cfg fs d f
        rw [sessAt_of_chain se h1 h2, hAS]
        show lookupName Session.name
          (insertNamed Session.name sub.sessions ⟨sessionNameOf f, [freshRun cfg fs f]⟩) se =
          some s
        rw [lookupName_insertNamed_ne _ (by simpa using hdse)]
        exact hse
    · have h1 := get_modality_add_attach cfg fs d f
      have h2 : (attachModality cfg fs d f).get_subject_by_name su = some sub := by
        rw [attachModality_eq, hmobj]
        show lookupName Subject.name
          (insertNamed Subject.name mo.subjects (attachSubject cfg fs d f)) su = some sub
        rw [lookupName_insertNamed_ne _ (by rw [attachSubject_name]; exact hds)]
        exact hsu
      rw [sessAt_of_chain se h1 h2]
      exact hse
  · have h1 : (d.add_modality (attachModality cfg fs d f)).get_modality_by_name m = some mo := by
      show lookupName Modality.name
        (insertNamed Modality.name d.modalities (attachModality cfg fs d f)) m = some mo
      rw [lookupName_insertNamed_ne _ (by rw [attachModality_name]; exact hdm)]
      exact hm
    rw [sessAt_of_chain se h1 hsu]
    exact hse

theorem read_single_sessAt_mono {cfg : Config} {fs : Fs} {d : Dataset} {f : BidsFile}
    {m su se : String} {s : Session}
    (h : d.sessAt m su se = some s) :
    (read_single cfg fs d f).sessAt m su se = some s := by
  cases hx : d.sessAt (datatypeOf f) (subjectNameOf f) (sessionNameOf f) with
  | some t =>
      rw [read_single_of_sessAt_isSome (by rw [hx]; rfl)]
      exact h
  | none =>
      by_cases hne : extractParams cfg fs f = []
      · rw [read_single_of_empty d hne]
        exact h
      · rw [read_single_attach_eq hx hne]
        exact sessAt_add_attach hx h

theorem read_single_sessAt_isSome {cfg : Config} {fs : Fs} {d : Dataset} {f : BidsFile}
    (hne : extractParams cfg fs f ≠ []) :
    ((read_single cfg fs d f).sessAt (datatypeOf f) (subjectNameOf f)
      (sessionNameOf f)).isSome = true := by
  cases hx : d.sessAt (datatypeOf f) (subjectNameOf f) (sessionNameOf f) with
  | some t =>
      rw [read_single_of_sessAt_isSome (by rw [hx]; rfl), hx]
      rfl
  | none =>
      rw [sessAt_attach_self hx hne]
      rfl

/-! Walk-level lemmas. -/

theorem walkFiles_nil (cfg : Config) (fs : Fs) (v : List String) (d : Dataset) :
    walkFiles cfg fs v [] d = d := rfl

theorem walkFiles_cons (cfg : Config) (fs : Fs) (v : List String)
    (f : BidsFile) (l : List BidsFile) (d : Dataset) :
    walkFiles cfg fs v (f :: l) d = walkFiles cfg fs v l (walkStep cfg fs v d f) := rfl

theorem walkFiles_append (cfg : Config) (fs : Fs) (v : List String)
    (l1 l2 : List BidsFile) (d : Dataset) :
    walkFiles cfg fs v (l1 ++ l2) d = walkFiles cfg fs v l2 (walkFiles cfg fs v l1 d) := by
  unfold walkFiles
  exact List.foldl_append _ _ _ _

theorem walkStep_sessAt_mono {cfg : Config} {fs : Fs} {v : List String}
    {d : Dataset} {f : BidsFile} {m su se : String} {s : Session}
    (h : d.sessAt m su se = some s) :
    (walkStep cfg fs v d f).sessAt m su se = some s := by
  unfold walkStep
  split
  · exact read_single_sessAt_mono h
  · exact h

theorem walkFiles_sessAt_mono {cfg : Config} {fs : Fs} {v : List String}
    (l : List BidsFile) :
    ∀ {d : Dataset} {m su se : String} {s : Session},
      d.sessAt m su se = some s → (walkFiles cfg fs v l d).sessAt m su se = some s := by
  induction l with
  | nil => intro d m su se s h; exact h
  | cons g rest ih =>
      intro d m su se s h
      rw [walkFiles_cons]
      exact ih (walkStep_sessAt_mono h)

theorem walkFiles_closure (cfg : Config) (fs : Fs) (v : List String)
    (files : List BidsFile) :
    ∀ (d0 : Dataset), ∀ f ∈ files, f.ext ∈ v →
      extractParams cfg fs f = [] ∨
      ((walkFiles cfg fs v files d0).sessAt (datatypeOf f) (subjectNameOf f)
        (sessionNameOf f)).isSome = true := by
  induction files with
  | nil => intro d0 f hf; cases hf
  | cons g rest ih =>
      intro d0 f hf hacc
      rw [walkFiles_cons]
      rcases List.mem_cons.mp hf with rfl | hf2
      · by_cases hne : extractParams cfg fs f = []
        · exact Or.inl hne
        · right
          have h1 : ((walkStep cfg fs v d0 f).sessAt (datatypeOf f) (subjectNameOf f)
              (sessionNameOf f)).isSome = true := by
            unfold walkStep
            rw [if_pos hacc]
            exact read_single_sessAt_isSome hne
          obtain ⟨t, ht⟩ := Option.isSome_iff_exists.mp h1
          rw [walkFiles_sessAt_mono rest ht]
          rfl
      · exact ih (walkStep cfg fs v d0 g) f hf2 hacc

theorem walkFiles_stable (cfg : Config) (fs : Fs) (v : List String)
    (files : List BidsFile) (d : Dataset)
    (h : ∀ f ∈ files, f.ext ∈ v →
      extractParams cfg fs f = [] ∨
      (d.sessAt (datatypeOf f) (subjectNameOf f) (sessionNameOf f)).isSome = true) :
    walkFiles cfg fs v files d = d := by
  induction files with
  | nil => rfl
  | cons g rest ih =>
      rw [walkFiles_cons]
      have hstep : walkStep cfg fs v d g = d := by
        unfold walkStep
        split
        · rename_i hacc
          rcases h g (List.mem_cons_self g rest) hacc with hemp | hsome
          · exact read_single_of_empty d hemp
          · exact read_single_of_sessAt_isSome hsome
        · rfl
      rw [hstep]
      exact ih (fun f hf hacc => h f (List.mem_cons_of_mem _ hf) hacc)

theorem walkFiles_idem (cfg : Config) (fs : Fs) (v : List String) (files : List BidsFile) :
    walkFiles cfg fs v files (walkFiles cfg fs v files ⟨[]⟩) =
      walkFiles cfg fs v files ⟨[]⟩ :=
  walkFiles_stable cfg fs v files _ (walkFiles_closure cfg fs v files ⟨[]⟩)

theorem walkFiles_empty_iff (cfg : Config) (fs : Fs) (v : List String)
    (files : List BidsFile) :
    (walkFiles cfg fs v files ⟨[]⟩).modalities = [] ↔
      ∀ f ∈ files, f.ext ∈ v → extractParams cfg fs f = [] := by
  constructor
  · intro hmods f hf hacc
    by_contra hne
    rcases walkFiles_closure cfg fs v files ⟨[]⟩ f hf hacc with hemp | hsome
    · exact hne hemp
    · obtain ⟨t, ht⟩ := Option.isSome_iff_exists.mp hsome
      obtain ⟨mo, sub, hm, hs2, hs3⟩ := sessAt_chain ht
      unfold Dataset.get_modality_by_name at hm
      rw [hmods] at hm
      exact Option.noConfusion hm
  · intro hall
    have h2 : walkFiles cfg fs v files ⟨[]⟩ = ⟨[]⟩ :=
      walkFiles_stable cfg fs v files ⟨[]⟩ (fun f hf hacc => Or.inl (hall f hf hacc))
    rw [h2]

/-! Invariant preservation. -/

theorem all_of_lookup {nm : α → String} {p : α → Bool} {xs : List α} {s : String} {x : α}
    (hall : xs.all p = true) (h : lookupName nm xs s = some x) : p x = true :=
  (List.all_eq_true.mp hall) x (lookupName_mem h)

theorem all_insertNamed {nm : α → String} {p : α → Bool} {xs : List α} {x : α}
    (hall : xs.all p = true) (hx : p x = true) : (insertNamed nm xs x).all p = true := by
  rw [List.all_eq_true]
  intro y hy
  rcases mem_insertNamed hy with rfl | hmem
  · exact hx
  · exact (List.all_eq_true.mp hall) y hmem

theorem modalityOk_lookup {d : Dataset} {n : String} {mo : Modality}
    (h : nonEmptyInv d = true) (hm : d.get_modality_by_name n = some mo) :
    modalityOk mo = true :=
  all_of_lookup h hm

theorem subjectOk_lookup {mo : Modality} {n : String} {su : Subject}
    (h : modalityOk mo = true) (hs : mo.get_subject_by_name n = some su) :
    subjectOk su = true :=
  all_of_lookup (Bool.and_elim_right h) hs

theorem modalityOk_attach {cfg : Config} {fs : Fs} {d : Dataset} {f : BidsFile}
    (h : nonEmptyInv d = true) : modalityOk (attachModality cfg fs d f) = true := by
  have hsubOk : subjectOk (attachSubject cfg fs d f) = true := by
    have hsessions : ∀ su0 : Subject,
        su0.sessions.all sessionOk = true →
        subjectOk (su0.add_session ⟨sessionNameOf f, [freshRun cfg fs f]⟩) = true := by
      intro su0 hall
      unfold subjectOk Subject.add_session
      rw [Bool.and_eq_true]
      constructor
      · rw [insertNamed_isEmpty_false]
        rfl
      · exact all_insertNamed hall rfl
    unfold attachSubject
    cases hm : d.get_modality_by_name (datatypeOf f) with
    | none =>
        simp only [hm, Option.getD_none, Modality.get_subject_by_name, lookupName,
          Option.getD_none]
        exact hsessions _ rfl
    | some mo =>
        cases hsu : mo.get_subject_by_name (subjectNameOf f) with
        | none =>
            simp only [hm, Option.getD_some, hsu, Option.getD_none]
            exact hsessions _ rfl
        | some su =>
            simp only [hm, Option.getD_some, hsu]
            have hOk := subjectOk_lookup (modalityOk_lookup h hm) hsu
            exact hsessions _ (Bool.and_elim_right hOk)
  rw [attachModality_eq]
  unfold modalityOk Modality.add_subject
  rw [Bool.and_eq_true]
  constructor
  · rw [insertNamed_isEmpty_false]
    rfl
  · have hbase : ((d.get_modality_by_name (datatypeOf f)).getD
        ⟨datatypeOf f, []⟩).subjects.all subjectOk = true := by
      cases hm : d.get_modality_by_name (datatypeOf f) with
      | none => rfl
      | some mo =>
          simp only [Option.getD_some]
          exact Bool.and_elim_right (modalityOk_lookup h hm)
    exact all_insertNamed hbase hsubOk

theorem nonEmptyInv_read_single {cfg : Config} {fs : Fs} {d : Dataset} {f : BidsFile}
    (h : nonEmptyInv d = true) : nonEmptyInv (read_single cfg fs d f) = true := by
  cases hx : d.sessAt (datatypeOf f) (subjectNameOf f) (sessionNameOf f) with
  | some t =>
      rw [read_single_of_sessAt_isSome (by rw [hx]; rfl)]
      exact h
  | none =>
      by_cases hne : extractParams cfg fs f = []
      · rw [read_single_of_empty d hne]
        exact h
      · rw [read_single_attach_eq hx hne]
        unfold nonEmptyInv Dataset.add_modality
        exact all_insertNamed h (modalityOk_attach h)

theorem nonEmptyInv_walkFiles (cfg : Config) (fs : Fs) (v : List String)
    (files : List BidsFile) :
    ∀ d : Dataset, nonEmptyInv d = true → nonEmptyInv (walkFiles cfg fs v files d) = true := by
  induction files with
  | nil => intro d h; exact h
  | cons g rest ih =>
      intro d h
      rw [walkFiles_cons]
      apply ih
      unfold walkStep
      split
      · exact nonEmptyInv_read_single h
      · exact h

theorem runEcho_freshRun (cfg : Config) (fs : Fs) (f : BidsFile) :
    runEcho (freshRun cfg fs f) = true := by
  unfold runEcho freshRun
  simp only [updateAll_nil_left (extractParams_keys_nodup cfg fs f)]
  simp

theorem modalityEcho_attach {cfg : Config} {fs : Fs} {d : Dataset} {f : BidsFile}
    (h : echoInv d = true) : modalityEcho (attachModality cfg fs d f) = true := by
  have hsess : sessionEcho ⟨sessionNameOf f, [freshRun cfg fs f]⟩ = true := by
    unfold sessionEcho
    simp [runEcho_freshRun cfg fs f]
  have hsubEcho : subjectEcho (attachSubject cfg fs d f) = true := by
    have hsessions : ∀ su0 : Subject,
        su0.sessions.all sessionEcho = true →
        subjectEcho (su0.add_session ⟨sessionNameOf f, [freshRun cfg fs f]⟩) = true := by
      intro su0 hall
      unfold subjectEcho Subject.add_session
      exact all_insertNamed hall hsess
    unfold attachSubject
    cases hm : d.get_modality_by_name (datatypeOf f) with
    | none =>
        simp only [hm, Option.getD_none, Modality.get_subject_by_name, lookupName,
          Option.getD_none]
        exact hsessions _ rfl
    | some mo =>
        cases hsu : mo.get_subject_by_name (subjectNameOf f) with
        | none =>
            simp only [hm, Option.getD_some, hsu, Option.getD_none]
            exact hsessions _ rfl
        | some su =>
            simp only [hm, Option.getD_some, hsu]
            have h1 : modalityEcho mo = true := all_of_lookup h hm
            have h2 : subjectEcho su = true := all_of_lookup h1 hsu
            exact hsessions _ h2
  rw [attachModality_eq]
  unfold modalityEcho Modality.add_subject
  have hbase : ((d.get_modality_by_name (datatypeOf f)).getD
      ⟨datatypeOf f, []⟩).subjects.all subjectEcho = true := by
    cases hm : d.get_modality_by_name (datatypeOf f) with
    | none => rfl
    | some mo =>
        simp only [Option.getD_some]
        have h1 : modalityEcho mo = true := all_of_lookup h hm
        exact h1
  exact all_insertNamed hbase hsubEcho

theorem echoInv_read_single {cfg : Config} {fs : Fs} {d : Dataset} {f : BidsFile}
    (h : echoInv d = true) : echoInv (read_single cfg fs d f) = true := by
  cases hx : d.sessAt (datatypeOf f) (subjectNameOf f) (sessionNameOf f) with
  | some t =>
      rw [read_single_of_sessAt_isSome (by rw [hx]; rfl)]
      exact h
  | none =>
      by_cases hne : extractParams cfg fs f = []
      · rw [read_single_of_empty d hne]
        exact h
      · rw [read_single_attach_eq hx hne]
        unfold echoInv Dataset.add_modality
        exact all_insertNamed h (modalityEcho_attach h)

theorem echoInv_walkFiles (cfg : Config) (fs : Fs) (v : List String)
    (files : List BidsFile) :
    ∀ d : Dataset, echoInv d = true → echoInv (walkFiles cfg fs v files d) = true := by
  induction files with
  | nil => intro d h; exact h
  | cons g rest ih =>
      intro d h
      rw [walkFiles_cons]
      apply ih
      unfold walkStep
      split
      · exact echoInv_read_single h
      · exact h

/-! Path derivation lemmas. -/

theorem pyParents_zero (f : BidsFile) : f.pyParents 0 = f.dir := by
  simp [BidsFile.pyParents, BidsFile.filePath, FsPath.parentDir]

theorem pyParents_one (f : BidsFile) : f.pyParents 1 = ⟨f.dir.comps.dropLast⟩ := by
  simp [BidsFile.pyParents, BidsFile.filePath, FsPath.parentDir]

theorem pyParents_two (f : BidsFile) : f.pyParents 2 = ⟨f.dir.comps.dropLast.dropLast⟩ := by
  simp [BidsFile.pyParents, BidsFile.filePath, FsPath.parentDir]

theorem datatypeOf_eq (f : BidsFile) : datatypeOf f = f.dir.comps.getLastD "" := by
  unfold datatypeOf
  rw [pyParents_zero]
  rfl

theorem sessionNameOf_eq (f : BidsFile) :
    sessionNameOf f = f.dir.comps.dropLast.getLastD "" := by
  unfold sessionNameOf
  rw [pyParents_one]
  rfl

theorem subjectNameOf_eq (f : BidsFile) :
    subjectNameOf f = f.dir.comps.dropLast.dropLast.getLastD "" := by
  unfold subjectNameOf
  rw [pyParents_two]
  rfl

/-! Run-level monotonicity. -/

theorem runAt_of_sessAt {d : Dataset} {m su se : String} {sess : Session} (r : String)
    (h : d.sessAt m su se = some sess) :
    d.runAt m su se r = sess.get_run_by_name r := by
  unfold Dataset.runAt
  simp only [h]

theorem walkFiles_runAt_mono {cfg : Config} {fs : Fs} {v : List String}
    (l : List BidsFile) {d : Dataset} {m su se r : String} {run : Run}
    (h : d.runAt m su se r = some run) :
    (walkFiles cfg fs v l d).runAt m su se r = some run := by
  cases hs : d.sessAt m su se with
  | none =>
      unfold Dataset.runAt at h
      rw [hs] at h
      exact Option.noConfusion h
  | some sess =>
      rw [runAt_of_sessAt r hs] at h
      rw [runAt_of_sessAt r (walkFiles_sessAt_mono l hs)]
      exact h

/-! Concrete scenario used by counterexamples and witnesses. -/

/-- Configuration with header inspection off. -/
def cfg0 : Config := ⟨"mind", false, true⟩

/-- Configuration with header inspection on. -/
def cfgN : Config := ⟨"mind", true, true⟩

/-- Extension allow-list used in the concrete scenarios. -/
def exts0 : List String := [".json"]

/-- Sidecar file ds/sub-01/ses-01/anat/run-1.json. -/
def F1 : BidsFile := ⟨⟨["ds", "sub-01", "ses-01", "anat"]⟩, "run-1", ".json"⟩

/-- Sidecar file other/sub-01/ses-01/anat/run-1.json: maps to the same
run identity as F1 (same modality, subject, session and stem names)
but lives at a different path, so it carries its own parameters. -/
def F2 : BidsFile := ⟨⟨["other", "sub-01", "ses-01", "anat"]⟩, "run-1", ".json"⟩

/-- Sidecar file other/sub-01/ses-01/anat/run-2.json: maps to the same
session identity as F1 but to a distinct run name. -/
def F3 : BidsFile := ⟨⟨["other", "sub-01", "ses-01", "anat"]⟩, "run-2", ".json"⟩

/-- Filesystem carrying one parameter for each of the three files. -/
def fs1 : Fs := fun p =>
  if p = ⟨["ds", "sub-01", "ses-01", "anat", "run-1.json"]⟩ then
    some [("A", Value.vNum 1)]
  else if p = ⟨["other", "sub-01", "ses-01", "anat", "run-1.json"]⟩ then
    some [("B", Value.vNum 2)]
  else if p = ⟨["other", "sub-01", "ses-01", "anat", "run-2.json"]⟩ then
    some [("B", Value.vNum 2)]
  else none

/-- File used for the staged-extraction witness. -/
def FN : BidsFile := ⟨⟨["ds", "sub-01", "ses-01", "anat"]⟩, "scan", ".json"⟩

/-- Filesystem with sidecar, nii and nii.gz entries at the same stem,
with overlapping keys to exhibit the overwrite order. -/
def fsN : Fs := fun p =>
  if p = ⟨["ds", "sub-01", "ses-01", "anat", "scan.json"]⟩ then
    some [("A", Value.vNum 1), ("B", Value.vNum 1)]
  else if p = ⟨["ds", "sub-01", "ses-01", "anat", "scan.nii"]⟩ then
    some [("B", Value.vNum 2), ("C", Value.vNum 2)]
  else if p = ⟨["ds", "sub-01", "ses-01", "anat", "scan.nii.gz"]⟩ then
    some [("C", Value.vNum 3)]
  else none

/-- File whose sidecar and header lookups are all empty under fs1. -/
def FX : BidsFile := ⟨⟨["q", "w", "e", "r"]⟩, "x", ".json"⟩

/-- Dataset produced by walking F1 alone. -/
def D1 : Dataset := walkFiles cfg0 fs1 exts0 [F1] ⟨[]⟩

/-! Claim theorems. -/

/-- Claim C1, counterexample: F1 and F2 are accepted files of one walk
that map to the same run identity (modality anat, subject sub-01,
session ses-01, basename run-1) and carry disjoint non-empty extracted
parameter mappings, yet after the walk the single Run at that identity
holds only the parameters of the first file: the key B of the
later-processed file is absent, so the parameter map is not the union
of both extractions. -/
theorem fastbids_C1_counterexample :
    datatypeOf F2 = datatypeOf F1 ∧ subjectNameOf F2 = subjectNameOf F1 ∧
    sessionNameOf F2 = sessionNameOf F1 ∧ F2.stem = F1.stem ∧
    extractParams cfg0 fs1 F1 = [("A", Value.vNum 1)] ∧
    extractParams cfg0 fs1 F2 = [("B", Value.vNum 2)] ∧
    Dataset.runAt (walkFiles cfg0 fs1 exts0 [F1, F2] ⟨[]⟩)
      "anat" "sub-01" "ses-01" "run-1" =
      some ⟨"run-1", [("A", Value.vNum 1)], Value.vNum 1⟩ ∧
    alookup "B" [("A", Value.vNum 1)] = none := by
  decide

/-- Claim C1, amended: when the earlier of two same-run-identity files
yields a non-empty extraction, its session is attached when it is
processed and the later file is skipped entirely by read_single; the
walk of both files produces exactly the dataset of the walk of the
first file alone, so no merge of the second extraction takes place. -/
theorem fastbids_C1_amended (cfg : Config) (fs : Fs) (v : List String) (f1 f2 : BidsFile)
    (hacc : f1.ext ∈ v)
    (hm : datatypeOf f2 = datatypeOf f1)
    (hsu : subjectNameOf f2 = subjectNameOf f1)
    (hse : sessionNameOf f2 = sessionNameOf f1)
    (hne : extractParams cfg fs f1 ≠ []) :
    walkFiles cfg fs v [f1, f2] ⟨[]⟩ = walkFiles cfg fs v [f1] ⟨[]⟩ := by
  have h1 : walkStep cfg fs v ⟨[]⟩ f1 = read_single cfg fs ⟨[]⟩ f1 := by
    unfold walkStep
    rw [if_pos hacc]
  have hstep2 : walkStep cfg fs v (read_single cfg fs ⟨[]⟩ f1) f2 =
      read_single cfg fs ⟨[]⟩ f1 := by
    unfold walkStep
    split
    · apply read_single_of_sessAt_isSome
      rw [hm, hsu, hse]
      exact read_single_sessAt_isSome hne
    · rfl
  show walkStep cfg fs v (walkStep cfg fs v ⟨[]⟩ f1) f2 = walkStep cfg fs v ⟨[]⟩ f1
  rw [h1]
  exact hstep2

/-- Claim C1, witness for the amended statement at the concrete input. -/
theorem fastbids_C1_witness :
    walkFiles cfg0 fs1 exts0 [F1, F2] ⟨[]⟩ = walkFiles cfg0 fs1 exts0 [F1] ⟨[]⟩ :=
  fastbids_C1_amended cfg0 fs1 exts0 F1 F2 (by decide) (by decide) (by decide)
    (by decide) (by decide)

/-- Claim C2, counterexample: F3 is accepted and has a non-empty
extracted mapping, but because F1 already attached the session
(anat, sub-01, ses-01) earlier in the same walk, F3 is skipped and
no Run exists at the path implied by its location. -/
theorem fastbids_C2_counterexample :
    F3.ext ∈ exts0 ∧
    extractParams cfg0 fs1 F3 = [("B", Value.vNum 2)] ∧
    Dataset.runAt (walkFiles cfg0 fs1 exts0 [F1, F3] ⟨[]⟩)
      "anat" "sub-01" "ses-01" "run-2" = none := by
  decide

/-- Claim C2, amended: the guarantee holds exactly for accepted files
whose derived session is not yet attached when they are processed:
such a file with a non-empty extraction produces a Run at the implied
(modality, subject, session, stem) path whose parameter map equals the
extracted mapping, and that Run persists to the end of the walk. -/
theorem fastbids_C2_amended (cfg : Config) (fs : Fs) (v : List String)
    (l1 l2 : List BidsFile) (f : BidsFile)
    (hacc : f.ext ∈ v)
    (hne : extractParams cfg fs f ≠ [])
    (hfirst : (walkFiles cfg fs v l1 ⟨[]⟩).sessAt (datatypeOf f) (subjectNameOf f)
      (sessionNameOf f) = none) :
    (walkFiles cfg fs v (l1 ++ f :: l2) ⟨[]⟩).runAt (datatypeOf f) (subjectNameOf f)
      (sessionNameOf f) f.stem = some (freshRun cfg fs f) ∧
    (freshRun cfg fs f).params = extractParams cfg fs f := by
  refine ⟨?_, freshRun_params⟩
  rw [walkFiles_append]
  have h0 : walkFiles cfg fs v (f :: l2) (walkFiles cfg fs v l1 ⟨[]⟩) =
      walkFiles cfg fs v l2 (walkStep cfg fs v (walkFiles cfg fs v l1 ⟨[]⟩) f) := rfl
  rw [h0]
  apply walkFiles_runAt_mono
  have h1 : walkStep cfg fs v (walkFiles cfg fs v l1 ⟨[]⟩) f =
      read_single cfg fs (walkFiles cfg fs v l1 ⟨[]⟩) f := by
    unfold walkStep
    rw [if_pos hacc]
  rw [h1]
  exact runAt_attach_self hfirst hne

/-- Claim C2, witness for the amended statement at the concrete input. -/
theorem fastbids_C2_witness :
    (walkFiles cfg0 fs1 exts0 [F1] ⟨[]⟩).runAt (datatypeOf F1) (subjectNameOf F1)
      (sessionNameOf F1) F1.stem = some (freshRun cfg0 fs1 F1) ∧
    (freshRun cfg0 fs1 F1).params = extractParams cfg0 fs1 F1 :=
  fastbids_C2_amended cfg0 fs1 exts0 [] [] F1 (by decide) (by decide) (by decide)

/-- Claim C3: running the walk loop twice over the same unchanged file
tree and filesystem yields a dataset structurally identical to running
it once; the second pass changes nothing because every accepted file
either extracts nothing or finds its session already attached. -/
theorem fastbids_C3 (cfg : Config) (fs : Fs) (v : List String) (files : List BidsFile) :
    walkFiles cfg fs v files (walkFiles cfg fs v files ⟨[]⟩) =
      walkFiles cfg fs v files ⟨[]⟩ :=
  walkFiles_idem cfg fs v files

/-- Characterization of walk as a plain conditional. -/
theorem walk_eq (cfg : Config) (fs : Fs) (v : List String) (files : List BidsFile) :
    walk cfg fs v files =
      if (walkFiles cfg fs v files ⟨[]⟩).modalities.isEmpty = true then
        Except.error noDataMsg
      else Except.ok (walkFiles cfg fs v files ⟨[]⟩) := rfl

/-- Claim C4: walk raises the no-data error after the traversal if and
only if the dataset ends the walk with zero modalities, which happens
if and only if no accepted file produced a non-empty extraction; when
at least one modality was populated, walk returns the dataset. -/
theorem fastbids_C4 (cfg : Config) (fs : Fs) (v : List String) (files : List BidsFile) :
    (walk cfg fs v files = Except.error noDataMsg ↔
      (walkFiles cfg fs v files ⟨[]⟩).modalities = []) ∧
    ((walkFiles cfg fs v files ⟨[]⟩).modalities = [] ↔
      ∀ f ∈ files, f.ext ∈ v → extractParams cfg fs f = []) ∧
    ((walkFiles cfg fs v files ⟨[]⟩).modalities ≠ [] →
      walk cfg fs v files = Except.ok (walkFiles cfg fs v files ⟨[]⟩)) := by
  refine ⟨?_, walkFiles_empty_iff cfg fs v files, ?_⟩
  · rw [walk_eq]
    by_cases h : (walkFiles cfg fs v files ⟨[]⟩).modalities = []
    · rw [if_pos (isEmpty_true_iff.mpr h)]
      simp [h]
    · rw [if_neg (fun hh => h (isEmpty_true_iff.mp hh))]
      constructor
      · intro hcon
        exact Except.noConfusion hcon
      · intro hmods
        exact absurd hmods h
  · intro h
    rw [walk_eq, if_neg (fun hh => h (isEmpty_true_iff.mp hh))]

/-- Claim C4, witness: the populated branch at a concrete input. -/
theorem fastbids_C4_witness :
    walk cfg0 fs1 exts0 [F1] = Except.ok (walkFiles cfg0 fs1 exts0 [F1] ⟨[]⟩) :=
  (fastbids_C4 cfg0 fs1 exts0 [F1]).2.2 (by decide)

/-- Claim C5: for a file with at least three ancestor directories, the
derived modality name is the name of its parent directory, the derived
session name is the name of the directory two levels above it, and the
derived subject name is the name of the directory three levels above. -/
theorem fastbids_C5 (f : BidsFile) (pre : List String) (subj sess dt : String)
    (h : f.dir.comps = pre ++ [subj, sess, dt]) :
    datatypeOf f = dt ∧ sessionNameOf f = sess ∧ subjectNameOf f = subj := by
  refine ⟨?_, ?_, ?_⟩
  · rw [datatypeOf_eq, h]
    simp [List.getLastD_eq_getLast?]
  · rw [sessionNameOf_eq, h]
    simp [List.getLastD_eq_getLast?]
  · rw [subjectNameOf_eq, h]
    simp [List.getLastD_eq_getLast?]

/-- Claim C5, witness at the concrete file F1. -/
theorem fastbids_C5_witness :
    datatypeOf F1 = "anat" ∧ sessionNameOf F1 = "ses-01" ∧ subjectNameOf F1 = "sub-01" :=
  fastbids_C5 F1 ["ds"] "sub-01" "ses-01" "anat" rfl

theorem orElseO_none (a : Option Value) : orElseO a none = a := by
  cases a <;> rfl

/-- Claim C6: the combined extraction equals the sidecar stage, then
the uncompressed header stage (only when header inspection is on),
then the compressed header stage, merged in that order with later
stages overwriting earlier ones on key collision; a stage whose file
is missing contributes the empty mapping, and the lookup of any key in
the result prefers the compressed header, then the uncompressed
header, then the sidecar.  The stage mappings come from parsed
documents, so their keys are assumed duplicate free. -/
theorem fastbids_C6 (cfg : Config) (fs : Fs) (f : BidsFile)
    (h1 : (keysOf (sidecarParams fs f)).Nodup)
    (h2 : (keysOf (niiParams cfg fs f)).Nodup)
    (h3 : (keysOf (gzParams cfg fs f)).Nodup) :
    extractParams cfg fs f =
      updateAll (updateAll (updateAll [] (sidecarParams fs f)) (niiParams cfg fs f))
        (gzParams cfg fs f) ∧
    ∀ k : String, alookup k (extractParams cfg fs f) =
      orElseO (alookup k (gzParams cfg fs f))
        (orElseO (alookup k (niiParams cfg fs f)) (alookup k (sidecarParams fs f))) := by
  refine ⟨extractParams_eq_stages cfg fs f, ?_⟩
  intro k
  rw [extractParams_eq_stages]
  rw [alookup_updateAll_nodup k _ h3 _]
  rw [alookup_updateAll_nodup k _ h2 _]
  rw [alookup_updateAll_nodup k _ h1 []]
  rw [show alookup k ([] : Params) = none from rfl, orElseO_none]

/-- Claim C6, witness: the staged equality at a concrete filesystem
with overlapping keys across the three stages. -/
theorem fastbids_C6_witness :
    extractParams cfgN fsN FN =
      updateAll (updateAll (updateAll [] (sidecarParams fsN FN)) (niiParams cfgN fsN FN))
        (gzParams cfgN fsN FN) :=
  (fastbids_C6 cfgN fsN FN (by decide) (by decide) (by decide)).1

/-- Claim C7: a file whose extraction is empty leaves the dataset
unchanged (in particular it attaches no new session); one read_single
step preserves the invariant that every attached modality owns a
subject, every attached subject a session and every attached session a
run; and the invariant holds after any walk from the empty dataset. -/
theorem fastbids_C7 (cfg : Config) (fs : Fs) (v : List String)
    (files : List BidsFile) (d : Dataset) (f : BidsFile) :
    (extractParams cfg fs f = [] → read_single cfg fs d f = d) ∧
    (nonEmptyInv d = true → nonEmptyInv (read_single cfg fs d f) = true) ∧
    nonEmptyInv (walkFiles cfg fs v files ⟨[]⟩) = true :=
  ⟨fun h => read_single_of_empty d h, fun h => nonEmptyInv_read_single h,
    nonEmptyInv_walkFiles cfg fs v files ⟨[]⟩ rfl⟩

/-- Claim C7, witness: the empty-extraction identity at a file with no
sidecar, and invariant preservation at a concrete step. -/
theorem fastbids_C7_witness :
    read_single cfg0 fs1 ⟨[]⟩ FX = ⟨[]⟩ ∧
    nonEmptyInv (read_single cfg0 fs1 ⟨[]⟩ F1) = true :=
  ⟨(fastbids_C7 cfg0 fs1 exts0 [] ⟨[]⟩ FX).1 (by decide),
    (fastbids_C7 cfg0 fs1 exts0 [] ⟨[]⟩ F1).2.1 (by decide)⟩

/-- Claim C8: every Run in the final dataset carries as echo_time the
EchoTime entry of its parameter map when one was supplied by the
extraction merged into it, and the default 1.0 otherwise.  Each run is
created by exactly one merge, whose mapping becomes the parameter map,
so the invariant expresses both halves of the claim. -/
theorem fastbids_C8 (cfg : Config) (fs : Fs) (v : List String) (files : List BidsFile) :
    echoInv (walkFiles cfg fs v files ⟨[]⟩) = true :=
  echoInv_walkFiles cfg fs v files ⟨[]⟩ rfl

/-- Claim C9: when the derived session name already identifies a
session attached under the derived subject and modality, read_single
leaves the dataset unchanged (the only action is re-submitting the
existing modality to the insert path, a no-op) and the parse branch is
not taken, so no extraction is performed. -/
theorem fastbids_C9 (cfg : Config) (fs : Fs) (d : Dataset) (f : BidsFile)
    (h : (d.sessAt (datatypeOf f) (subjectNameOf f) (sessionNameOf f)).isSome = true) :
    read_single cfg fs d f = d ∧ readSingleParses d f = false := by
  constructor
  · exact read_single_of_sessAt_isSome h
  · obtain ⟨s, hs⟩ := Option.isSome_iff_exists.mp h
    obtain ⟨mo, sub, hm, hsu, hse⟩ := sessAt_chain hs
    unfold readSingleParses
    simp only [hm, Option.getD_some, hsu, hse]
    rfl

/-- Claim C9, witness: after walking F1, processing F2 (same derived
session) changes nothing and does not parse. -/
theorem fastbids_C9_witness :
    read_single cfg0 fs1 D1 F2 = D1 ∧ readSingleParses D1 F2 = false :=
  fastbids_C9 cfg0 fs1 D1 F2 (by decide)

/-- Claim C10: the extraction reads the sidecar at the directory and
stem of the accepted file with the json extension forced, never at the
accepted file path itself, and the header lookups use the same
directory and stem with the nii and nii.gz extensions; parse and
read_single treat a file exactly as they treat the json file with the
same directory and stem, and the run is named by the stem. -/
theorem fastbids_C10 (cfg : Config) (fs : Fs) (d : Dataset) (s : Session)
    (dir : FsPath) (stem e : String) :
    extractParams cfg fs ⟨dir, stem, e⟩ = extractParams cfg fs ⟨dir, stem, ".json"⟩ ∧
    parse cfg fs s ⟨dir, stem, e⟩ = parse cfg fs s ⟨dir, stem, ".json"⟩ ∧
    read_single cfg fs d ⟨dir, stem, e⟩ = read_single cfg fs d ⟨dir, stem, ".json"⟩ := by
  refine ⟨rfl, rfl, ?_⟩
  have hp : ∀ s0 : Session, parse cfg fs s0 ⟨dir, stem, e⟩ = parse cfg fs s0 ⟨dir, stem, ".json"⟩ :=
    fun s0 => rfl
  simp only [read_single, datatypeOf_eq, sessionNameOf_eq, subjectNameOf_eq, hp]
